import Mathlib

/-!
Verification of the CloudSaver core (`src/cloudsaver.py`): duplicate
detection (`find_duplicates`), the reduction selection filter and the
download / reduce / replace orchestration (`download_and_reduce_images`),
the dimension behaviour of `reduce_image_to_1080p`, and the Drive path
round trip used by `fetch_files` and both mutation loops.

The Python code is shallowly embedded: dict records become structures with
`Option` fields where the code uses `dict.get` with a default, Python `int`
becomes `Int`, the float threshold `min_size_mb` becomes `ℚ`, and the
effectful workflows become pure trace-producing interpreters over an
environment that fixes the outcome of every external call (download,
decode, trash, upload, operator input).
-/

open scoped List

namespace CloudSaver

/-- A Python value as it can appear at the `ownedByMe` key of a record
dict: absent/None, a bool, or some truthy non-bool (int or string).
`rec.get("ownedByMe") is True` is identity with the `True` singleton,
i.e. equality with `vBool true` here; `vNone` covers both a missing key
and an explicit `None`, which `dict.get` cannot distinguish. -/
inductive PyVal where
  | vNone
  | vBool (b : Bool)
  | vInt (n : Int)
  | vStr (s : String)
deriving DecidableEq

/-- A record dict as consumed by `download_and_reduce_images`
(lines 154-228).  `name` and `path` are accessed with `[...]` subscripts
and are modelled as always present; `mimeType` and `size_bytes` are read
with `.get` and a default, so a missing key is `none`. -/
structure FileRec where
  name : String
  path : String
  size_bytes : Option Int
  mimeType : Option String
  ownedByMe : PyVal
deriving DecidableEq

/-- Python `lst[:n]` for an `int` slice bound `n`: the first `n` elements
when `n ≥ 0`, and all but the last `-n` elements when `n < 0`. -/
def pyTake (n : Int) (l : List α) : List α :=
  if 0 ≤ n then l.take n.toNat else l.take ((l.length + n).toNat)

/-- Python `s.startswith(pat)` on character lists: `pat` is an initial
segment of `s`. -/
def pyStartsWith : List Char → List Char → Bool
  | _, [] => true
  | [], _ :: _ => false
  | c :: cs, p :: ps => c == p && pyStartsWith cs ps

/-- The eligibility filter of `download_and_reduce_images` (lines 155-161):
`f.get("mimeType", "").startswith("image/") and
 f.get("size_bytes", 0) > min_size_mb * 1024 * 1024 and
 f.get("ownedByMe") is True`. -/
def image_files (files : List FileRec) (min_size_mb : ℚ) : List FileRec :=
  files.filter fun f =>
    pyStartsWith (f.mimeType.getD "").data "image/".data
      && decide (((f.size_bytes.getD 0 : Int) : ℚ) > min_size_mb * 1024 * 1024)
      && decide (f.ownedByMe = PyVal.vBool true)

/-- `selected_files = image_files[:number_of_files]` (line 165). -/
def selected_files (files : List FileRec) (min_size_mb : ℚ)
    (number_of_files : Int) : List FileRec :=
  pyTake number_of_files (image_files files min_size_mb)

theorem pyTake_sublist (n : Int) (l : List α) : (pyTake n l).Sublist l := by
  unfold pyTake
  split <;> exact List.take_sublist _ _

theorem pyTake_ofNat (k : Nat) (l : List α) :
    pyTake (k : Int) l = l.take k := by
  simp [pyTake]

theorem selected_files_sublist (files : List FileRec) (m : ℚ) (n : Int) :
    (selected_files files m n).Sublist files :=
  (pyTake_sublist _ _).trans (List.filter_sublist _)

/-- Python `s.split(sep)` on the character list of a string: split at every
occurrence of `sep`, keeping empty parts, so the result is never empty. -/
def pySplitOn (sep : Char) : List Char → List (List Char)
  | [] => [[]]
  | c :: cs =>
    match pySplitOn sep cs with
    | [] => [[]]
    | g :: gs => if c = sep then [] :: g :: gs else (c :: g) :: gs

theorem pySplitOn_ne_nil (sep : Char) (l : List Char) : pySplitOn sep l ≠ [] := by
  cases l with
  | nil => simp [pySplitOn]
  | cons c cs =>
    simp only [pySplitOn]
    cases h : pySplitOn sep cs with
    | nil => simp
    | cons g gs => by_cases hc : c = sep <;> simp [hc]

theorem pySplitOn_cons_sep (sep : Char) (l : List Char) :
    pySplitOn sep (sep :: l) = [] :: pySplitOn sep l := by
  obtain ⟨g, gs, h⟩ := List.exists_cons_of_ne_nil (pySplitOn_ne_nil sep l)
  simp [pySplitOn, h]

theorem pySplitOn_cons_of_ne (sep c : Char) (l : List Char) (g : List Char)
    (gs : List (List Char)) (hne : c ≠ sep) (h : pySplitOn sep l = g :: gs) :
    pySplitOn sep (c :: l) = (c :: g) :: gs := by
  simp [pySplitOn, h, hne]

theorem pySplitOn_no_sep (sep : Char) (l : List Char) (h : sep ∉ l) :
    pySplitOn sep l = [l] := by
  induction l with
  | nil => rfl
  | cons c cs ih =>
    have hc : c ≠ sep := fun he => h (he ▸ List.mem_cons_self c cs)
    have hcs : sep ∉ cs := fun hm => h (List.mem_cons_of_mem _ hm)
    exact pySplitOn_cons_of_ne sep c cs cs [] hc (ih hcs)

theorem pySplitOn_append_sep (sep : Char) (pre l : List Char) (h : sep ∉ pre) :
    pySplitOn sep (pre ++ sep :: l) = pre :: pySplitOn sep l := by
  induction pre with
  | nil => simpa using pySplitOn_cons_sep sep l
  | cons c cs ih =>
    have hc : c ≠ sep := fun he => h (he ▸ List.mem_cons_self c cs)
    have hcs : sep ∉ cs := fun hm => h (List.mem_cons_of_mem _ hm)
    obtain ⟨g, gs, hr⟩ := List.exists_cons_of_ne_nil (pySplitOn_ne_nil sep l)
    have := ih hcs
    rw [hr] at this
    have step := pySplitOn_cons_of_ne sep c (cs ++ sep :: l) (cs) (g :: gs) hc this
    rw [List.cons_append, step, hr]

/-- Construction of a record's `path` in `fetch_files` (line 94): the
remote id formatted between the `/d/` and `/view` segments. -/
def drive_path (fid : String) : String :=
  "https://drive.google.com/file/d/" ++ fid ++ "/view"

/-- Recovery of the remote id in `download_and_reduce_images` (lines 170,
210) and `find_duplicates` (line 260): `file['path'].split('/')[-2]`. -/
def extract_file_id (path : String) : String :=
  String.mk (((pySplitOn '/' path.data).reverse.drop 1).headD [])

theorem pySplitOn_drive_path (cs : List Char) (h : ('/' : Char) ∉ cs) :
    pySplitOn '/' (drive_path (String.mk cs)).data
      = ["https:".data, [], "drive.google.com".data, "file".data, "d".data,
          cs, "view".data] := by
  have e : (drive_path (String.mk cs)).data
      = "https:".data ++ '/' ::
          ('/' :: ("drive.google.com".data ++ '/' ::
            ("file".data ++ '/' :: ("d".data ++ '/' ::
              (cs ++ '/' :: "view".data))))) := by
    show (['h','t','t','p','s',':','/','/','d','r','i','v','e','.','g','o',
          'o','g','l','e','.','c','o','m','/','f','i','l','e','/','d','/']
            ++ cs) ++ ['/','v','i','e','w'] = _
    simp
  rw [e, pySplitOn_append_sep _ _ _ (by decide), pySplitOn_cons_sep,
    pySplitOn_append_sep _ _ _ (by decide),
    pySplitOn_append_sep _ _ _ (by decide),
    pySplitOn_append_sep _ _ _ (by decide),
    pySplitOn_append_sep _ _ _ h,
    pySplitOn_no_sep _ _ (by decide)]

/-- C9: storing a remote file id as
`https://drive.google.com/file/d/{id}/view` and later splitting the
stored path on `/` and taking the second-to-last component recovers the
id unchanged, for every non-empty id that contains no `/`. -/
theorem drive_path_roundtrip (fid : String) (h1 : fid ≠ "")
    (h2 : ('/' : Char) ∉ fid.data) :
    extract_file_id (drive_path fid) = fid := by
  cases fid with
  | mk cs =>
    rw [extract_file_id, pySplitOn_drive_path cs h2]
    rfl

/-- Record shape consumed by `find_duplicates` (lines 232-266): `name`,
`size_bytes` and `path` are read with `[...]` subscripts, so they are
modelled as always-present fields; this is the shape of every dict built
by `fetch_files`. -/
structure MediaRecord where
  name : String
  path : String
  size_bytes : Int
deriving DecidableEq

/-- `key = (file['name'], file['size_bytes'])` (line 238). -/
def dupKey (f : MediaRecord) : String × Int := (f.name, f.size_bytes)

/-- One step of the `grouped = defaultdict(list)` loop (lines 236-239):
append the record to the bucket of its key; a fresh key is inserted at
the end (Python dicts preserve key insertion order). -/
def addToGroups (gs : List ((String × Int) × List MediaRecord))
    (f : MediaRecord) : List ((String × Int) × List MediaRecord) :=
  if gs.any fun p => p.1 = dupKey f then
    gs.map fun p => if p.1 = dupKey f then (p.1, p.2 ++ [f]) else p
  else gs ++ [(dupKey f, [f])]

/-- The fully built `grouped` dict, as an insertion-ordered association
list. -/
def grouped (files : List MediaRecord) :
    List ((String × Int) × List MediaRecord) :=
  files.foldl addToGroups []

/-- `grouped.values()` in iteration order. -/
def groupValues (files : List MediaRecord) : List (List MediaRecord) :=
  (grouped files).map Prod.snd

/-- The buckets the loop at lines 244-248 treats as duplicate groups:
`len(group) > 1`. -/
def dupGroups (files : List MediaRecord) : List (List MediaRecord) :=
  (groupValues files).filter fun g => 1 < g.length

/-- `duplicates_to_delete` as accumulated by lines 241-247:
`group[1:]` of every bucket with more than one member, in bucket order. -/
def duplicates_to_delete (files : List MediaRecord) : List MediaRecord :=
  (groupValues files).foldl
    (fun acc g => if 1 < g.length then acc ++ g.drop 1 else acc) []

/-- `total_bytes_savable` as accumulated by lines 242-248. -/
def total_bytes_savable (files : List MediaRecord) : Int :=
  (groupValues files).foldl
    (fun acc g =>
      if 1 < g.length then acc + ((g.drop 1).map MediaRecord.size_bytes).sum
      else acc) 0

/-- Lookup of a key's bucket in the association list. -/
def bucketOf : List ((String × Int) × List MediaRecord) → (String × Int) →
    List MediaRecord
  | [], _ => []
  | p :: gs, k => if p.1 = k then p.2 else bucketOf gs k

theorem addToGroups_of_any (gs : List ((String × Int) × List MediaRecord))
    (f : MediaRecord) (h : (gs.any fun p => p.1 = dupKey f) = true) :
    addToGroups gs f
      = gs.map fun p => if p.1 = dupKey f then (p.1, p.2 ++ [f]) else p := by
  simp [addToGroups, h]

theorem addToGroups_of_not_any (gs : List ((String × Int) × List MediaRecord))
    (f : MediaRecord) (h : (gs.any fun p => p.1 = dupKey f) = false) :
    addToGroups gs f = gs ++ [(dupKey f, [f])] := by
  simp [addToGroups, h]

theorem bucketOf_map_ne (f : MediaRecord) (k : String × Int)
    (hk : k ≠ dupKey f) :
    ∀ gs, bucketOf
        (gs.map fun p => if p.1 = dupKey f then (p.1, p.2 ++ [f]) else p) k
      = bucketOf gs k
  | [] => rfl
  | p :: gs => by
    have hk2 : ¬ dupKey f = k := fun he => hk he.symm
    by_cases h1 : p.1 = dupKey f
    · have h2 : ¬ p.1 = k := fun he => hk (h1.symm.trans he).symm
      simp [bucketOf, h1, h2, hk2, bucketOf_map_ne f k hk gs]
    · by_cases h2 : p.1 = k <;>
        simp [bucketOf, h1, h2, hk, hk2, bucketOf_map_ne f k hk gs]

theorem bucketOf_addToGroups (f : MediaRecord) (k : String × Int) :
    ∀ gs, bucketOf (addToGroups gs f) k
      = if k = dupKey f then bucketOf gs k ++ [f] else bucketOf gs k
  | [] => by
    by_cases hk : k = dupKey f <;>
      simp [addToGroups, bucketOf, hk, eq_comm]
  | p :: gs => by
    by_cases h1 : p.1 = dupKey f
    · have hany : ((p :: gs).any fun q => q.1 = dupKey f) = true := by
        simp [List.any_cons, h1]
      rw [addToGroups_of_any _ _ hany]
      by_cases h2 : p.1 = k
      · have hk : k = dupKey f := h2 ▸ h1
        simp [bucketOf, h1, h2, hk]
      · have hk : ¬ k = dupKey f := fun he => h2 (h1.trans he.symm)
        have hk2 : ¬ dupKey f = k := fun he => hk he.symm
        simp [bucketOf, h1, h2, hk, hk2, bucketOf_map_ne f k hk gs]
    · cases hany : gs.any fun q => q.1 = dupKey f with
      | true =>
        have hany2 : ((p :: gs).any fun q => q.1 = dupKey f) = true := by
          simp [List.any_cons, hany]
        rw [addToGroups_of_any _ _ hany2]
        have ihg := bucketOf_addToGroups f k gs
        rw [addToGroups_of_any _ _ hany] at ihg
        by_cases h2 : p.1 = k
        · have hk : ¬ k = dupKey f := fun he => h1 (h2.trans he)
          simp [bucketOf, h1, h2, hk]
        · simp [bucketOf, h1, h2, ihg]
      | false =>
        have hany2 : ((p :: gs).any fun q => q.1 = dupKey f) = false := by
          simp [List.any_cons, hany, h1]
        rw [addToGroups_of_not_any _ _ hany2]
        have ihg := bucketOf_addToGroups f k gs
        rw [addToGroups_of_not_any _ _ hany] at ihg
        by_cases h2 : p.1 = k
        · have hk : ¬ k = dupKey f := fun he => h1 (h2.trans he)
          simp [bucketOf, h2, hk]
        · simp [bucketOf, h2, ihg]

theorem bucketOf_foldl (k : String × Int) :
    ∀ (files : List MediaRecord) gs,
      bucketOf (files.foldl addToGroups gs) k
        = bucketOf gs k ++ files.filter fun f => dupKey f = k
  | [], gs => by simp
  | f :: files, gs => by
    rw [List.foldl_cons, bucketOf_foldl k files (addToGroups gs f),
      bucketOf_addToGroups]
    by_cases h : k = dupKey f
    · simp [h, List.filter_cons]
    · have h2 : ¬ dupKey f = k := fun he => h he.symm
      simp [h, h2, List.filter_cons]

theorem bucketOf_grouped (files : List MediaRecord) (k : String × Int) :
    bucketOf (grouped files) k = files.filter fun f => dupKey f = k := by
  simpa [bucketOf] using bucketOf_foldl k files []

/-- The keys of the association list. -/
def keysOf (gs : List ((String × Int) × List MediaRecord)) :
    List (String × Int) :=
  gs.map Prod.fst

theorem keysOf_addToGroups (gs : List ((String × Int) × List MediaRecord))
    (f : MediaRecord) (h : (keysOf gs).Nodup) :
    (keysOf (addToGroups gs f)).Nodup := by
  cases hany : gs.any fun p => p.1 = dupKey f with
  | true =>
    rw [addToGroups_of_any _ _ hany]
    have he : keysOf (gs.map fun p =>
        if p.1 = dupKey f then (p.1, p.2 ++ [f]) else p) = keysOf gs := by
      unfold keysOf
      rw [List.map_map]
      exact List.map_congr_left fun p _ => by
        by_cases hp : p.1 = dupKey f <;> simp [hp]
    rw [he]; exact h
  | false =>
    rw [addToGroups_of_not_any _ _ hany]
    have hnotin : dupKey f ∉ keysOf gs := by
      intro hm
      obtain ⟨p, hp, hpk⟩ := List.mem_map.mp hm
      exact (List.any_eq_false.mp hany p hp) (by simp [hpk])
    unfold keysOf
    rw [List.map_append, List.nodup_append]
    refine ⟨h, List.nodup_singleton _, ?_⟩
    rw [List.map_singleton, List.disjoint_singleton]
    exact hnotin

theorem keysOf_grouped_aux :
    ∀ (files : List MediaRecord) gs, (keysOf gs).Nodup →
      (keysOf (files.foldl addToGroups gs)).Nodup
  | [], _, h => h
  | f :: files, gs, h =>
    keysOf_grouped_aux files (addToGroups gs f) (keysOf_addToGroups gs f h)

theorem keysOf_grouped (files : List MediaRecord) :
    (keysOf (grouped files)).Nodup :=
  keysOf_grouped_aux files [] (by simp [keysOf])

theorem bucketOf_of_mem :
    ∀ (gs : List ((String × Int) × List MediaRecord))
      (p : (String × Int) × List MediaRecord),
      (keysOf gs).Nodup → p ∈ gs → bucketOf gs p.1 = p.2
  | [], p, _, hp => absurd hp (List.not_mem_nil p)
  | q :: gs, p, h, hp => by
    have h' : (q.1 :: gs.map Prod.fst).Nodup := h
    rcases List.mem_cons.mp hp with he | hm
    · simp [bucketOf, he]
    · have hq : q.1 ≠ p.1 := by
        intro he
        exact (List.nodup_cons.mp h').1
          (by rw [he]; exact List.mem_map.mpr ⟨p, hm, rfl⟩)
      have h2 : (keysOf gs).Nodup := (List.nodup_cons.mp h').2
      simp [bucketOf, hq, bucketOf_of_mem gs p h2 hm]

theorem snd_of_mem_grouped (files : List MediaRecord)
    (p : (String × Int) × List MediaRecord) (hp : p ∈ grouped files) :
    p.2 = files.filter fun f => dupKey f = p.1 := by
  rw [← bucketOf_of_mem (grouped files) p (keysOf_grouped files) hp,
    bucketOf_grouped]

theorem bucketOf_eq_nil_of_no_key :
    ∀ (gs : List ((String × Int) × List MediaRecord)) (k : String × Int),
      (∀ p ∈ gs, p.1 ≠ k) → bucketOf gs k = []
  | [], _, _ => rfl
  | p :: gs, k, h => by
    have h1 : p.1 ≠ k := h p (List.mem_cons_self p gs)
    simp [bucketOf, h1,
      bucketOf_eq_nil_of_no_key gs k fun q hq => h q (List.mem_cons_of_mem _ hq)]

theorem exists_entry_of_mem (files : List MediaRecord) (f : MediaRecord)
    (hf : f ∈ files) : ∃ p ∈ grouped files, p.1 = dupKey f := by
  by_contra hno
  push_neg at hno
  have h1 : bucketOf (grouped files) (dupKey f) = [] :=
    bucketOf_eq_nil_of_no_key _ _ hno
  rw [bucketOf_grouped] at h1
  have h2 : f ∈ files.filter fun g => dupKey g = dupKey f :=
    List.mem_filter.mpr ⟨hf, by simp⟩
  rw [h1] at h2
  exact List.not_mem_nil f h2

theorem map_upd_eq_self (f : MediaRecord)
    (gs : List ((String × Int) × List MediaRecord))
    (h : ∀ p ∈ gs, p.1 ≠ dupKey f) :
    (gs.map fun p => if p.1 = dupKey f then (p.1, p.2 ++ [f]) else p) = gs := by
  rw [List.map_congr_left fun p hp => if_neg (h p hp)]
  exact List.map_id _

theorem flatten_map_upd (f : MediaRecord) :
    ∀ (gs : List ((String × Int) × List MediaRecord)),
      (keysOf gs).Nodup → (gs.any fun p => p.1 = dupKey f) = true →
      ((gs.map fun p => if p.1 = dupKey f then (p.1, p.2 ++ [f]) else p).map
          Prod.snd).flatten.Perm
        ((gs.map Prod.snd).flatten ++ [f])
  | [], _, hany => by simp at hany
  | q :: gs, h, hany => by
    have h' : (q.1 :: gs.map Prod.fst).Nodup := h
    by_cases h1 : q.1 = dupKey f
    · have hrest : ∀ p ∈ gs, p.1 ≠ dupKey f := by
        intro p hp he
        exact (List.nodup_cons.mp h').1
          (by rw [h1, ← he]; exact List.mem_map.mpr ⟨p, hp, rfl⟩)
      rw [List.map_cons, if_pos h1, map_upd_eq_self f gs hrest]
      simp only [List.map_cons, List.flatten_cons]
      calc (q.2 ++ [f]) ++ (gs.map Prod.snd).flatten
          = q.2 ++ (f :: (gs.map Prod.snd).flatten) := by
            rw [List.append_assoc]; rfl
        _ ~ f :: (q.2 ++ (gs.map Prod.snd).flatten) := List.perm_middle
        _ ~ (q.2 ++ (gs.map Prod.snd).flatten) ++ [f] :=
            (List.perm_append_singleton _ _).symm
    · have hany2 : (gs.any fun p => p.1 = dupKey f) = true := by
        simpa [List.any_cons, h1] using hany
      have ih := flatten_map_upd f gs (List.nodup_cons.mp h').2 hany2
      rw [List.map_cons, if_neg h1]
      simp only [List.map_cons, List.flatten_cons]
      calc q.2 ++ ((gs.map fun p =>
              if p.1 = dupKey f then (p.1, p.2 ++ [f]) else p).map
                Prod.snd).flatten
          ~ q.2 ++ ((gs.map Prod.snd).flatten ++ [f]) :=
            List.Perm.append_left _ ih
        _ = (q.2 ++ (gs.map Prod.snd).flatten) ++ [f] :=
            (List.append_assoc _ _ _).symm

theorem flatten_addToGroups (f : MediaRecord)
    (gs : List ((String × Int) × List MediaRecord))
    (h : (keysOf gs).Nodup) :
    ((addToGroups gs f).map Prod.snd).flatten.Perm
      ((gs.map Prod.snd).flatten ++ [f]) := by
  cases hany : gs.any fun p => p.1 = dupKey f with
  | true =>
    rw [addToGroups_of_any _ _ hany]
    exact flatten_map_upd f gs h hany
  | false =>
    rw [addToGroups_of_not_any _ _ hany]
    simp

theorem flatten_grouped_aux :
    ∀ (files : List MediaRecord) gs, (keysOf gs).Nodup →
      (((files.foldl addToGroups gs).map Prod.snd).flatten).Perm
        ((gs.map Prod.snd).flatten ++ files)
  | [], gs, _ => by simp
  | f :: files, gs, h => by
    rw [List.foldl_cons]
    calc ((files.foldl addToGroups (addToGroups gs f)).map Prod.snd).flatten
        ~ (((addToGroups gs f).map Prod.snd).flatten ++ files) :=
          flatten_grouped_aux files (addToGroups gs f)
            (keysOf_addToGroups gs f h)
      _ ~ ((gs.map Prod.snd).flatten ++ [f]) ++ files :=
          List.Perm.append_right _ (flatten_addToGroups f gs h)
      _ = (gs.map Prod.snd).flatten ++ (f :: files) := by
          rw [List.append_assoc]; rfl

theorem flatten_groupValues (files : List MediaRecord) :
    (groupValues files).flatten.Perm files := by
  simpa [groupValues, grouped] using
    flatten_grouped_aux files [] (by simp [keysOf])

theorem filter_or_perm (p q : α → Bool) :
    ∀ (l : List α), (∀ x ∈ l, ¬(p x = true ∧ q x = true)) →
      (l.filter p ++ l.filter q).Perm (l.filter fun x => p x || q x)
  | [], _ => List.Perm.refl _
  | x :: l, h => by
    have hl := fun y hy => h y (List.mem_cons_of_mem _ hy)
    have ih := filter_or_perm p q l hl
    by_cases hp : p x = true
    · have hq : ¬ q x = true := fun hqx => h x (List.mem_cons_self x l) ⟨hp, hqx⟩
      simpa [List.filter_cons, hp, hq] using ih.cons x
    · by_cases hq : q x = true
      · have hp' : p x = false := Bool.eq_false_iff.mpr hp
        simp only [List.filter_cons, hp', hq, Bool.false_or, if_true,
          if_false]
        exact List.perm_middle.trans (ih.cons x)
      · simpa [List.filter_cons, hp, hq] using ih

theorem flatten_filter_keys (files : List MediaRecord) :
    ∀ (ks : List (String × Int)), ks.Nodup →
      ((ks.map fun k => files.filter fun f => dupKey f = k).flatten).Perm
        (files.filter fun f => decide (dupKey f ∈ ks))
  | [], _ => by simp
  | k :: ks, h => by
    have h1 : k ∉ ks := (List.nodup_cons.mp h).1
    have ih := flatten_filter_keys files ks (List.nodup_cons.mp h).2
    rw [List.map_cons, List.flatten_cons]
    calc (files.filter fun f => dupKey f = k) ++
            ((ks.map fun k => files.filter fun f => dupKey f = k).flatten)
        ~ (files.filter fun f => dupKey f = k) ++
            (files.filter fun f => decide (dupKey f ∈ ks)) :=
          List.Perm.append_left _ ih
      _ ~ files.filter fun f =>
            decide (dupKey f = k) || decide (dupKey f ∈ ks) := by
          apply filter_or_perm
          intro f _ hand
          rw [decide_eq_true_eq] at hand
          rcases hand with ⟨he, hm⟩
          rw [decide_eq_true_eq] at hm
          exact h1 (he ▸ hm)
      _ = files.filter fun f => decide (dupKey f ∈ k :: ks) := by
          apply List.filter_congr
          intro f _
          simp [List.mem_cons]

theorem small_flatten_perm (files : List MediaRecord) :
    (((groupValues files).filter fun g => !decide (1 < g.length)).flatten).Perm
      (files.filter fun f =>
        (files.countP fun g => dupKey g = dupKey f) = 1) := by
  have h1 : (groupValues files).filter (fun g => !decide (1 < g.length))
      = ((grouped files).filter fun p => !decide (1 < p.2.length)).map
          Prod.snd := by
    rw [groupValues, List.filter_map]
    rfl
  have hkeys : (((grouped files).filter fun p =>
      !decide (1 < p.2.length)).map Prod.fst).Nodup :=
    List.Nodup.sublist (List.Sublist.map Prod.fst (List.filter_sublist _))
      (keysOf_grouped files)
  have hmapsnd : ((grouped files).filter fun p =>
        !decide (1 < p.2.length)).map Prod.snd
      = (((grouped files).filter fun p => !decide (1 < p.2.length)).map
          Prod.fst).map fun k => files.filter fun f => dupKey f = k := by
    rw [List.map_map]
    apply List.map_congr_left
    intro p hp
    exact snd_of_mem_grouped files p (List.mem_of_mem_filter hp)
  have hperm := flatten_filter_keys files
    (((grouped files).filter fun p => !decide (1 < p.2.length)).map Prod.fst)
    hkeys
  rw [h1, hmapsnd]
  refine hperm.trans ?_
  rw [List.filter_congr ?_]
  intro f hf
  rw [decide_eq_decide]
  constructor
  · intro hm
    obtain ⟨p, hp, hpk⟩ := List.mem_map.mp hm
    have hpg : p ∈ grouped files := List.mem_of_mem_filter hp
    have hsnd := snd_of_mem_grouped files p hpg
    have hlen : ¬ 1 < p.2.length := by
      have := (List.mem_filter.mp hp).2
      simpa using this
    have hfin : f ∈ p.2 := by
      rw [hsnd, hpk]
      exact List.mem_filter.mpr ⟨hf, by simp⟩
    have h1le : 0 < p.2.length :=
      List.length_pos.mpr (List.ne_nil_of_mem hfin)
    have hone : p.2.length = 1 := by omega
    rw [List.countP_eq_length_filter, ← hpk, ← hsnd]
    exact hone
  · intro hc
    obtain ⟨p, hpg, hpk⟩ := exists_entry_of_mem files f hf
    have hsnd := snd_of_mem_grouped files p hpg
    have hlen : p.2.length = 1 := by
      rw [hsnd, hpk, ← List.countP_eq_length_filter]
      exact hc
    have hp : p ∈ (grouped files).filter fun p =>
        !decide (1 < p.2.length) :=
      List.mem_filter.mpr ⟨hpg, by simp [hlen]⟩
    exact List.mem_map.mpr ⟨p, hp, hpk⟩

theorem duplicates_to_delete_aux :
    ∀ (L : List (List MediaRecord)) (acc : List MediaRecord),
      L.foldl (fun acc g => if 1 < g.length then acc ++ g.drop 1 else acc)
          acc
        = acc ++ (L.filter fun g => 1 < g.length).flatMap fun g => g.drop 1
  | [], acc => by simp
  | g :: L, acc => by
    rw [List.foldl_cons]
    by_cases h : 1 < g.length
    · rw [if_pos h, duplicates_to_delete_aux L]
      simp [h, List.filter_cons, List.append_assoc]
    · rw [if_neg h, duplicates_to_delete_aux L]
      simp [h, List.filter_cons]

theorem total_bytes_savable_aux :
    ∀ (L : List (List MediaRecord)) (acc : Int),
      L.foldl (fun acc g =>
          if 1 < g.length then
            acc + ((g.drop 1).map MediaRecord.size_bytes).sum
          else acc) acc
        = acc + ((((L.filter fun g => 1 < g.length).flatMap fun g =>
            g.drop 1).map MediaRecord.size_bytes).sum)
  | [], acc => by simp
  | g :: L, acc => by
    rw [List.foldl_cons]
    by_cases h : 1 < g.length
    · rw [if_pos h, total_bytes_savable_aux L]
      simp [h, List.filter_cons, add_assoc]
    · rw [if_neg h, total_bytes_savable_aux L]
      simp [h, List.filter_cons]

/-- C1: `find_duplicates` buckets records by `(name, size_bytes)`
preserving first-seen order within each bucket (each emitted group is
exactly the in-order sublist of the input sharing one key), emits exactly
the buckets with at least two members, selects as deletion candidates the
members after the first of each group, and totals the `size_bytes` of
those candidates. -/
theorem find_duplicates_buckets (files : List MediaRecord) :
    (∀ g ∈ dupGroups files, 2 ≤ g.length ∧
        ∃ k, g = files.filter fun f => dupKey f = k) ∧
    (∀ k, 2 ≤ (files.filter fun f => dupKey f = k).length →
        (files.filter fun f => dupKey f = k) ∈ dupGroups files) ∧
    duplicates_to_delete files
      = (dupGroups files).flatMap (fun g => g.drop 1) ∧
    total_bytes_savable files
      = (((dupGroups files).flatMap fun g => g.drop 1).map
          MediaRecord.size_bytes).sum := by
  refine ⟨?_, ?_, ?_, ?_⟩
  · intro g hg
    have h2 : 1 < g.length := by
      simpa using (List.mem_filter.mp hg).2
    refine ⟨by omega, ?_⟩
    obtain ⟨p, hp, hpk⟩ := List.mem_map.mp (List.mem_filter.mp hg).1
    exact ⟨p.1, hpk ▸ snd_of_mem_grouped files p hp⟩
  · intro k hk
    have hne : (files.filter fun f => dupKey f = k) ≠ [] := by
      intro h0
      rw [h0] at hk
      simp at hk
    obtain ⟨f, hf⟩ := List.exists_mem_of_ne_nil _ hne
    have hff : f ∈ files := (List.mem_filter.mp hf).1
    obtain ⟨p, hpg, hpk⟩ := exists_entry_of_mem files f hff
    have hkey : dupKey f = k := by
      simpa using (List.mem_filter.mp hf).2
    have hsnd : p.2 = files.filter fun f2 => dupKey f2 = k := by
      rw [snd_of_mem_grouped files p hpg, hpk, hkey]
    refine List.mem_filter.mpr ⟨?_, ?_⟩
    · rw [← hsnd]
      exact List.mem_map.mpr ⟨p, hpg, rfl⟩
    · simpa using by omega
  · unfold duplicates_to_delete dupGroups
    simpa using duplicates_to_delete_aux (groupValues files) []
  · unfold total_bytes_savable dupGroups
    simpa using total_bytes_savable_aux (groupValues files) 0

/-- C7: every emitted duplicate group has at least two members, and the
members of all emitted groups together with the records whose key occurs
only once form a permutation of the input: no record is lost and none is
counted twice. -/
theorem find_duplicates_partition (files : List MediaRecord) :
    (∀ g ∈ dupGroups files, 2 ≤ g.length) ∧
    ((dupGroups files).flatten ++ files.filter fun f =>
        (files.countP fun g => dupKey g = dupKey f) = 1).Perm files := by
  constructor
  · intro g hg
    have h2 : 1 < g.length := by
      simpa using (List.mem_filter.mp hg).2
    omega
  · have hsplit := List.filter_append_perm
      (fun g => decide (1 < g.length)) (groupValues files)
    have hflat : ((dupGroups files).flatten ++
        (((groupValues files).filter fun g =>
            !decide (1 < g.length)).flatten)).Perm
        (groupValues files).flatten := by
      rw [← List.flatten_append]
      exact hsplit.flatten
    have hsmall := small_flatten_perm files
    calc (dupGroups files).flatten ++ (files.filter fun f =>
            (files.countP fun g => dupKey g = dupKey f) = 1)
        ~ (dupGroups files).flatten ++
            (((groupValues files).filter fun g =>
                !decide (1 < g.length)).flatten) :=
          List.Perm.append_left _ hsmall.symm
      _ ~ (groupValues files).flatten := hflat
      _ ~ files := flatten_groupValues files

/-- Pillow's rounding helper inside `Image.thumbnail`:
`max(min(math.floor(number), math.ceil(number), key=key), 1)` —
pick floor or ceil, whichever the key prefers (floor on ties, as Python's
`min` keeps the first argument), and never go below 1. -/
def round_aspect (x : ℚ) (key : ℤ → ℚ) : ℤ :=
  max (if key ⌊x⌋ ≤ key ⌈x⌉ then ⌊x⌋ else ⌈x⌉) 1

/-- The dimension computation of Pillow's `Image.thumbnail(size)`, which
`reduce_image_to_1080p` (line 135) calls with `HD_RESOLUTION`: return the
original size when it already fits the bound, otherwise scale the binding
dimension to the bound and round the other while preserving the aspect. -/
def thumbnail_size (w h bw bh : ℕ) : ℕ × ℕ :=
  if bw ≥ w ∧ bh ≥ h then (w, h)
  else if ((bw : ℚ) / (bh : ℚ)) ≥ ((w : ℚ) / (h : ℚ)) then
    ((round_aspect ((bh : ℚ) * ((w : ℚ) / (h : ℚ)))
        (fun nn => |(w : ℚ) / (h : ℚ) - (nn : ℚ) / (bh : ℚ)|)).toNat, bh)
  else
    (bw, (round_aspect ((bw : ℚ) / ((w : ℚ) / (h : ℚ)))
        (fun nn => if nn = 0 then 0
          else |(w : ℚ) / (h : ℚ) - (bw : ℚ) / (nn : ℚ)|)).toNat)

/-- Dimensions produced by `reduce_image_to_1080p`:
`img.thumbnail(HD_RESOLUTION, ...)` with `HD_RESOLUTION = (1920, 1080)`
(lines 24, 135). -/
def reduce_dims (w h : ℕ) : ℕ × ℕ := thumbnail_size w h 1920 1080

theorem round_aspect_le (x : ℚ) (key : ℤ → ℚ) (B : ℤ)
    (hx : x ≤ (B : ℚ)) (hB : 1 ≤ B) : round_aspect x key ≤ B := by
  unfold round_aspect
  have hf : ⌊x⌋ ≤ B := by
    have := Int.floor_le_floor hx
    rwa [Int.floor_intCast] at this
  have hc : ⌈x⌉ ≤ B := Int.ceil_le.mpr hx
  refine max_le ?_ hB
  split <;> assumption

/-- C8: the reducer never increases a dimension; an image already within
the `(1920, 1080)` bound keeps its dimensions, and reducing the output a
second time yields the same dimensions again. -/
theorem reduce_dims_bounds (w h : ℕ) (hw : 0 < w) (hh : 0 < h) :
    (reduce_dims w h).1 ≤ w ∧ (reduce_dims w h).2 ≤ h ∧
    (w ≤ 1920 → h ≤ 1080 →
      reduce_dims w h = (w, h) ∧
      reduce_dims (reduce_dims w h).1 (reduce_dims w h).2 = (w, h)) := by
  have hqh : (0 : ℚ) < (h : ℚ) := by exact_mod_cast hh
  have hqw : (0 : ℚ) < (w : ℚ) := by exact_mod_cast hw
  by_cases hearly : 1920 ≥ w ∧ 1080 ≥ h
  · have he : reduce_dims w h = (w, h) := by
      unfold reduce_dims thumbnail_size
      rw [if_pos hearly]
    refine ⟨by rw [he], by rw [he], fun _ _ => ⟨he, ?_⟩⟩
    rw [he]
    exact he
  · refine ⟨?_, ?_, fun hw' hh' => absurd ⟨hw', hh'⟩ hearly⟩ <;>
      by_cases hbr : ((1920 : ℚ) / (1080 : ℚ)) ≥ ((w : ℚ) / (h : ℚ))
    case pos =>
      have h1080 : 1080 < h := by
        by_contra hle
        push_neg at hle
        have hmul : (w : ℚ) * 1080 ≤ 1920 * (h : ℚ) :=
          (div_le_div_iff₀ hqh (by norm_num : (0 : ℚ) < 1080)).mp hbr
        have hhle : (h : ℚ) ≤ 1080 := by exact_mod_cast hle
        have hwq : (w : ℚ) ≤ 1920 := by nlinarith
        exact hearly ⟨by exact_mod_cast hwq, hle⟩
      have hv : (1080 : ℚ) * ((w : ℚ) / (h : ℚ)) ≤ (w : ℚ) := by
        rw [show (1080 : ℚ) * ((w : ℚ) / (h : ℚ))
            = 1080 * (w : ℚ) / (h : ℚ) from (mul_div_assoc _ _ _).symm,
          div_le_iff₀ hqh]
        have hge : (1080 : ℚ) ≤ (h : ℚ) := by exact_mod_cast h1080.le
        nlinarith
      have hred : reduce_dims w h
          = ((round_aspect ((1080 : ℚ) * ((w : ℚ) / (h : ℚ)))
              (fun nn => |(w : ℚ) / (h : ℚ) - (nn : ℚ) / (1080 : ℚ)|)).toNat,
            1080) := by
        simp only [reduce_dims, thumbnail_size, Nat.cast_ofNat]
        rw [if_neg hearly, if_pos hbr]
      rw [hred]
      exact Int.toNat_le.mpr (round_aspect_le _ _ _
        (by exact_mod_cast hv) (by exact_mod_cast hw))
    case neg =>
      have h1920 : 1920 < w := by
        by_contra hle
        push_neg at hle
        have hh1080 : 1080 < h := by
          rcases not_and_or.mp hearly with h1 | h2
          · omega
          · omega
        have hwq : (w : ℚ) ≤ 1920 := by exact_mod_cast hle
        have hhq : (1080 : ℚ) ≤ (h : ℚ) := by exact_mod_cast hh1080.le
        have : (w : ℚ) / (h : ℚ) ≤ (1920 : ℚ) / (1080 : ℚ) := by
          rw [div_le_div_iff₀ hqh (by norm_num : (0 : ℚ) < 1080)]
          nlinarith
        exact hbr this
      have hred : reduce_dims w h
          = (1920, (round_aspect ((1920 : ℚ) / ((w : ℚ) / (h : ℚ)))
              (fun nn => if nn = 0 then 0
                else |(w : ℚ) / (h : ℚ) - (1920 : ℚ) / (nn : ℚ)|)).toNat) := by
        simp only [reduce_dims, thumbnail_size, Nat.cast_ofNat]
        rw [if_neg hearly, if_neg hbr]
      rw [hred]
      exact by exact_mod_cast h1920.le
    case pos =>
      have h1080 : 1080 < h := by
        by_contra hle
        push_neg at hle
        have hmul : (w : ℚ) * 1080 ≤ 1920 * (h : ℚ) :=
          (div_le_div_iff₀ hqh (by norm_num : (0 : ℚ) < 1080)).mp hbr
        have hhle : (h : ℚ) ≤ 1080 := by exact_mod_cast hle
        have hwq : (w : ℚ) ≤ 1920 := by nlinarith
        exact hearly ⟨by exact_mod_cast hwq, hle⟩
      have hred : reduce_dims w h
          = ((round_aspect ((1080 : ℚ) * ((w : ℚ) / (h : ℚ)))
              (fun nn => |(w : ℚ) / (h : ℚ) - (nn : ℚ) / (1080 : ℚ)|)).toNat,
            1080) := by
        simp only [reduce_dims, thumbnail_size, Nat.cast_ofNat]
        rw [if_neg hearly, if_pos hbr]
      rw [hred]
      exact h1080.le
    case neg =>
      have h1920 : 1920 < w := by
        by_contra hle
        push_neg at hle
        have hh1080 : 1080 < h := by
          rcases not_and_or.mp hearly with h1 | h2
          · omega
          · omega
        have hwq : (w : ℚ) ≤ 1920 := by exact_mod_cast hle
        have hhq : (1080 : ℚ) ≤ (h : ℚ) := by exact_mod_cast hh1080.le
        have : (w : ℚ) / (h : ℚ) ≤ (1920 : ℚ) / (1080 : ℚ) := by
          rw [div_le_div_iff₀ hqh (by norm_num : (0 : ℚ) < 1080)]
          nlinarith
        exact hbr this
      have hApos : (0 : ℚ) < (w : ℚ) / (h : ℚ) := div_pos hqw hqh
      have hveq : (1920 : ℚ) / ((w : ℚ) / (h : ℚ))
          = 1920 * (h : ℚ) / (w : ℚ) := div_div_eq_mul_div _ _ _
      have hv : (1920 : ℚ) / ((w : ℚ) / (h : ℚ)) ≤ (h : ℚ) := by
        rw [hveq, div_le_iff₀ hqw]
        have hge : (1920 : ℚ) ≤ (w : ℚ) := by exact_mod_cast h1920.le
        nlinarith
      have hred : reduce_dims w h
          = (1920, (round_aspect ((1920 : ℚ) / ((w : ℚ) / (h : ℚ)))
              (fun nn => if nn = 0 then 0
                else |(w : ℚ) / (h : ℚ) - (1920 : ℚ) / (nn : ℚ)|)).toNat) := by
        simp only [reduce_dims, thumbnail_size, Nat.cast_ofNat]
        rw [if_neg hearly, if_neg hbr]
      rw [hred]
      exact Int.toNat_le.mpr (round_aspect_le _ _ _
        (by exact_mod_cast hv) (by exact_mod_cast hh))

/-- One observable step of the two effectful workflows: each remote call
made through the Drive service and each printed log line becomes one
event, in program order. -/
inductive Event where
  | msgDownloading (nm : String)
  | callDownload (fid : String)
  | msgSaved (nm : String)
  | msgReduced (nm : String) (before after : Int)
  | msgSkippedCorrupted (nm : String)
  | msgDownloadFailed (nm : String)
  | msgNoImages
  | msgProjected (total : Int)
  | callTrash (fid : String) (ok : Bool)
  | msgTrashedOriginal (nm : String)
  | callUpload (nm : String) (ok : Bool)
  | msgUploaded (nm : String)
  | msgReplaceFailed (nm : String)
  | msgFinalTotal (total : Int)
  | msgNoDuplicates
  | msgFoundDuplicates (n : Nat)
  | msgEstimate (total : Int)
  | msgDupTrashed (nm : String) (path : String)
  | msgDupTrashFailed (nm : String)
  | msgNoDeletion
deriving DecidableEq

/-- Outcomes of the external calls and operator inputs that one run of
`download_and_reduce_images` can make: whether each record's download
succeeds, what `reduce_image_to_1080p` returns for it (`none` models the
exception path), the replacement confirmation string, and whether each
trash and upload call succeeds. -/
structure ReduceEnv where
  downloadOk : FileRec → Bool
  reduceResult : FileRec → Option (Int × Int)
  answer : String
  trashOk : FileRec → Bool
  uploadOk : FileRec → Bool

/-- Outcomes for one run of `find_duplicates`: the confirmation string and
whether each trash call succeeds. -/
structure DupEnv where
  confirm : String
  trashOk : MediaRecord → Bool

/-- Python `s.strip().lower()` on the character list of a string: drop
whitespace from both ends, then lowercase every character. -/
def pyStripLower (s : String) : List Char :=
  (((s.data.dropWhile Char.isWhitespace).reverse.dropWhile
    Char.isWhitespace).reverse).map Char.toLower

/-- `input(...).strip().lower() == "y"` (lines 200-207, 256-257). -/
def pyAffirm (s : String) : Bool := pyStripLower s == ['y']

/-- State threaded through the download/reduce loop of
`download_and_reduce_images`: emitted events, `reduced_paths` (the plan
list) and `total_bytes_saved`. -/
structure RState where
  events : List Event
  plans : List FileRec
  total : Int
deriving DecidableEq

/-- One iteration of the loop at lines 167-193: print, build the request,
download into the staging file, reduce; an undecodable image is skipped
with a message, a failed download logged with a message, and in both
cases the loop moves on to the next record. -/
def process_file (env : ReduceEnv) (f : FileRec) : RState :=
  if env.downloadOk f then
    match env.reduceResult f with
    | some (b, a) =>
      ⟨[Event.msgDownloading f.name,
          Event.callDownload (extract_file_id f.path),
          Event.msgSaved f.name, Event.msgReduced f.name b a], [f], b - a⟩
    | none =>
      ⟨[Event.msgDownloading f.name,
          Event.callDownload (extract_file_id f.path),
          Event.msgSaved f.name, Event.msgSkippedCorrupted f.name], [], 0⟩
  else
    ⟨[Event.msgDownloading f.name,
        Event.callDownload (extract_file_id f.path),
        Event.msgDownloadFailed f.name], [], 0⟩

/-- The whole download/reduce loop (lines 166-193). -/
def reduce_phase (env : ReduceEnv) (selected : List FileRec) : RState :=
  selected.foldl
    (fun st f =>
      let r := process_file env f
      ⟨st.events ++ r.events, st.plans ++ r.plans, st.total + r.total⟩)
    ⟨[], [], 0⟩

/-- One iteration of the replacement loop (lines 208-228): trash the
original, then upload the reduced file; any failure in the two-step
sequence is caught and logged, and the loop continues. -/
def replace_file (env : ReduceEnv) (f : FileRec) : List Event :=
  Event.callTrash (extract_file_id f.path) (env.trashOk f) ::
    (if env.trashOk f then
      Event.msgTrashedOriginal f.name ::
        Event.callUpload f.name (env.uploadOk f) ::
          (if env.uploadOk f then [Event.msgUploaded f.name]
            else [Event.msgReplaceFailed f.name])
    else [Event.msgReplaceFailed f.name])

/-- Trace of one run of `download_and_reduce_images` (lines 146-229):
filter and truncate, download and reduce each selection, report the
projected saving, ask for confirmation, replace on `"y"`, and finally
report `total_bytes_saved` (the projected figure) whenever any plan
exists. -/
def download_and_reduce_images (env : ReduceEnv) (files : List FileRec)
    (min_size_mb : ℚ) (number_of_files : Int) : List Event :=
  if (image_files files min_size_mb).isEmpty then [Event.msgNoImages]
  else if (reduce_phase env
      (selected_files files min_size_mb number_of_files)).plans.isEmpty then
    (reduce_phase env (selected_files files min_size_mb
      number_of_files)).events
  else
    (reduce_phase env (selected_files files min_size_mb
        number_of_files)).events ++
      Event.msgProjected (reduce_phase env (selected_files files min_size_mb
          number_of_files)).total ::
        ((if pyAffirm env.answer then
            (reduce_phase env (selected_files files min_size_mb
              number_of_files)).plans.flatMap (replace_file env)
          else []) ++
          [Event.msgFinalTotal (reduce_phase env
            (selected_files files min_size_mb number_of_files)).total])

/-- Trace of one run of `find_duplicates` (lines 232-266). -/
def find_duplicates (env : DupEnv) (files : List MediaRecord) :
    List Event :=
  if (duplicates_to_delete files).isEmpty then [Event.msgNoDuplicates]
  else
    Event.msgFoundDuplicates (duplicates_to_delete files).length ::
      Event.msgEstimate (total_bytes_savable files) ::
        (if pyAffirm env.confirm then
          (duplicates_to_delete files).flatMap fun f =>
            Event.callTrash (extract_file_id f.path) (env.trashOk f) ::
              (if env.trashOk f then [Event.msgDupTrashed f.name f.path]
                else [Event.msgDupTrashFailed f.name])
        else [Event.msgNoDeletion])

/-- Is this event a remote mutation call (`files().update` with
`trashed=True`, or `files().create`)? -/
def isMutationCall : Event → Bool
  | Event.callTrash _ _ => true
  | Event.callUpload _ _ => true
  | _ => false

/-- Is this event one of the per-file failure log lines? -/
def isErrorMsg : Event → Bool
  | Event.msgSkippedCorrupted _ => true
  | Event.msgDownloadFailed _ => true
  | Event.msgReplaceFailed _ => true
  | Event.msgDupTrashFailed _ => true
  | _ => false

/-- Effect of one event on the local filesystem: the download loop writes
`output/downloaded/<name>` and `output/reduced/<name>`, and no operation
in the source ever removes a local file. -/
def diskStep (d : List String) (e : Event) : List String :=
  match e with
  | Event.msgSaved nm => d ++ ["output/downloaded/" ++ nm]
  | Event.msgReduced nm _ _ => d ++ ["output/reduced/" ++ nm]
  | _ => d

/-- Local files present after a trace. -/
def finalDisk (tr : List Event) : List String :=
  tr.foldl diskStep []

/-- Sum of `before - after` over every successful reduction in a trace:
the projected saving. -/
def sumReducedDeltas (tr : List Event) : Int :=
  (tr.filterMap fun e =>
    match e with
    | Event.msgReduced _ b a => some (b - a)
    | _ => none).sum

/-- Modelled from the spec: "realized" savings — the byte reduction
counted only for files whose full replace cycle succeeded, i.e. whose
trash-success and upload-success log lines are both present in the
trace.  The source has no such computation; this definition exists to
compare the reported figure against the spec's words. -/
def realized_savings (tr : List Event) : Int :=
  (tr.filterMap fun e =>
    match e with
    | Event.msgReduced nm b a =>
      if tr.contains (Event.msgTrashedOriginal nm)
          && tr.contains (Event.msgUploaded nm) then some (b - a)
      else none
    | _ => none).sum

theorem foldl_step_eq (env : ReduceEnv) :
    ∀ (sel : List FileRec) (st : RState),
      sel.foldl
          (fun st f =>
            let r := process_file env f
            RState.mk (st.events ++ r.events) (st.plans ++ r.plans)
              (st.total + r.total)) st
        = ⟨st.events ++ (reduce_phase env sel).events,
            st.plans ++ (reduce_phase env sel).plans,
            st.total + (reduce_phase env sel).total⟩
  | [], st => by simp [reduce_phase]
  | f :: sel, st => by
    have h2 : reduce_phase env (f :: sel)
        = ⟨(process_file env f).events ++ (reduce_phase env sel).events,
            (process_file env f).plans ++ (reduce_phase env sel).plans,
            (process_file env f).total + (reduce_phase env sel).total⟩ := by
      unfold reduce_phase
      rw [List.foldl_cons, foldl_step_eq env sel]
      simp [reduce_phase]
    rw [List.foldl_cons, foldl_step_eq env sel, h2]
    simp [List.append_assoc, add_assoc]

theorem reduce_phase_cons (env : ReduceEnv) (f : FileRec)
    (sel : List FileRec) :
    reduce_phase env (f :: sel)
      = ⟨(process_file env f).events ++ (reduce_phase env sel).events,
          (process_file env f).plans ++ (reduce_phase env sel).plans,
          (process_file env f).total + (reduce_phase env sel).total⟩ := by
  unfold reduce_phase
  rw [List.foldl_cons, foldl_step_eq env sel]
  simp [reduce_phase]

theorem reduce_phase_events (env : ReduceEnv) :
    ∀ (sel : List FileRec),
      (reduce_phase env sel).events
        = sel.flatMap fun f => (process_file env f).events
  | [] => by simp [reduce_phase]
  | f :: sel => by
    rw [reduce_phase_cons, List.flatMap_cons, ← reduce_phase_events env sel]

theorem reduce_phase_plans (env : ReduceEnv) :
    ∀ (sel : List FileRec),
      (reduce_phase env sel).plans
        = sel.filter fun f =>
            env.downloadOk f && (env.reduceResult f).isSome
  | [] => by simp [reduce_phase]
  | f :: sel => by
    rw [reduce_phase_cons, List.filter_cons, ← reduce_phase_plans env sel]
    by_cases hd : env.downloadOk f
    · cases hr : env.reduceResult f with
      | some p =>
        cases p with
        | mk b a => simp [process_file, hd, hr]
      | none => simp [process_file, hd, hr]
    · simp [process_file, hd]

theorem sumReducedDeltas_append (t1 t2 : List Event) :
    sumReducedDeltas (t1 ++ t2)
      = sumReducedDeltas t1 + sumReducedDeltas t2 := by
  simp [sumReducedDeltas, List.filterMap_append]

theorem sumReducedDeltas_process (env : ReduceEnv) (f : FileRec) :
    sumReducedDeltas (process_file env f).events
      = (process_file env f).total := by
  unfold process_file
  by_cases hd : env.downloadOk f
  · cases hr : env.reduceResult f with
    | some p =>
      cases p with
      | mk b a => simp [hd, hr, sumReducedDeltas]
    | none => simp [hd, hr, sumReducedDeltas]
  · simp [hd, sumReducedDeltas]

theorem reduce_phase_total_eq (env : ReduceEnv) :
    ∀ (sel : List FileRec),
      (reduce_phase env sel).total
        = sumReducedDeltas (reduce_phase env sel).events
  | [] => by simp [reduce_phase, sumReducedDeltas]
  | f :: sel => by
    rw [reduce_phase_cons]
    simp only [sumReducedDeltas_append, sumReducedDeltas_process,
      reduce_phase_total_eq env sel]

/-- Is this event the leading "Downloading ..." line of one loop
iteration? -/
def isMsgDownloading : Event → Bool
  | Event.msgDownloading _ => true
  | _ => false

/-- Is this event a `files().update(trashed=True)` call? -/
def isCallTrash : Event → Bool
  | Event.callTrash _ _ => true
  | _ => false

theorem process_file_kinds (env : ReduceEnv) (f : FileRec) (e : Event)
    (he : e ∈ (process_file env f).events) :
    isMutationCall e = false ∧ (∀ s, e ≠ Event.msgFinalTotal s) ∧
      (∀ s, e ≠ Event.msgProjected s) := by
  by_cases hd : env.downloadOk f
  · cases hr : env.reduceResult f with
    | some p =>
      cases p with
      | mk b a =>
        simp only [process_file, hd, hr, if_true, List.mem_cons,
          List.not_mem_nil, or_false] at he
        rcases he with rfl | rfl | rfl | rfl <;>
          exact ⟨rfl, fun s => by simp, fun s => by simp⟩
    | none =>
      simp only [process_file, hd, hr, if_true, List.mem_cons,
        List.not_mem_nil, or_false] at he
      rcases he with rfl | rfl | rfl | rfl <;>
        exact ⟨rfl, fun s => by simp, fun s => by simp⟩
  · simp only [process_file, hd, if_false, Bool.false_eq_true,
      List.mem_cons, List.not_mem_nil, or_false] at he
    rcases he with rfl | rfl | rfl <;>
      exact ⟨rfl, fun s => by simp, fun s => by simp⟩

theorem replace_file_kinds (env : ReduceEnv) (f : FileRec) (e : Event)
    (he : e ∈ replace_file env f) :
    isMsgDownloading e = false ∧ (∀ nm b a, e ≠ Event.msgReduced nm b a) ∧
      (∀ s, e ≠ Event.msgFinalTotal s) ∧ (∀ nm, e ≠ Event.msgSaved nm) := by
  by_cases ht : env.trashOk f
  · by_cases hu : env.uploadOk f
    · simp only [replace_file, ht, hu, if_true, List.mem_cons,
        List.not_mem_nil, or_false] at he
      rcases he with rfl | rfl | rfl | rfl <;>
        exact ⟨rfl, fun nm b a => by simp, fun s => by simp,
          fun nm => by simp⟩
    · simp only [replace_file, ht, hu, if_true, if_false,
        Bool.false_eq_true, List.mem_cons, List.not_mem_nil, or_false] at he
      rcases he with rfl | rfl | rfl | rfl <;>
        exact ⟨rfl, fun nm b a => by simp, fun s => by simp,
          fun nm => by simp⟩
  · simp only [replace_file, ht, if_false, Bool.false_eq_true,
      List.mem_cons, List.not_mem_nil, or_false] at he
    rcases he with rfl | rfl <;>
      exact ⟨rfl, fun nm b a => by simp, fun s => by simp,
        fun nm => by simp⟩

theorem reduce_phase_no_mutation (env : ReduceEnv) (sel : List FileRec)
    (e : Event) (he : e ∈ (reduce_phase env sel).events) :
    isMutationCall e = false := by
  rw [reduce_phase_events] at he
  obtain ⟨f, _, hef⟩ := List.mem_flatMap.mp he
  exact (process_file_kinds env f e hef).1

theorem reduce_phase_no_final (env : ReduceEnv) (sel : List FileRec)
    (s : Int) (he : Event.msgFinalTotal s ∈ (reduce_phase env sel).events) :
    False := by
  rw [reduce_phase_events] at he
  obtain ⟨f, _, hef⟩ := List.mem_flatMap.mp he
  exact (process_file_kinds env f _ hef).2.1 s rfl

theorem process_file_downloading (env : ReduceEnv) (f : FileRec) :
    (process_file env f).events.filter isMsgDownloading
      = [Event.msgDownloading f.name] := by
  unfold process_file
  by_cases hd : env.downloadOk f
  · cases hr : env.reduceResult f with
    | some p =>
      cases p with
      | mk b a => simp [hd, hr, isMsgDownloading, List.filter_cons]
    | none => simp [hd, hr, isMsgDownloading, List.filter_cons]
  · simp [hd, isMsgDownloading, List.filter_cons]

theorem reduce_phase_downloading (env : ReduceEnv) :
    ∀ (sel : List FileRec),
      (reduce_phase env sel).events.filter isMsgDownloading
        = sel.map fun f => Event.msgDownloading f.name
  | [] => by simp [reduce_phase]
  | f :: sel => by
    rw [reduce_phase_cons]
    simp only [List.filter_append, process_file_downloading,
      reduce_phase_downloading env sel, List.map_cons]
    rfl

theorem mem_reduce_phase_of_mem (env : ReduceEnv) (sel : List FileRec)
    (f : FileRec) (hf : f ∈ sel) (e : Event)
    (he : e ∈ (process_file env f).events) :
    e ∈ (reduce_phase env sel).events := by
  rw [reduce_phase_events]
  exact List.mem_flatMap.mpr ⟨f, hf, he⟩

theorem run_mutation_only_if (env : ReduceEnv) (files : List FileRec)
    (m : ℚ) (n : Int) (e : Event)
    (he : e ∈ download_and_reduce_images env files m n)
    (hm : isMutationCall e = true) : pyAffirm env.answer = true := by
  unfold download_and_reduce_images at he
  by_cases h1 : (image_files files m).isEmpty
  · rw [if_pos h1] at he
    simp only [List.mem_singleton] at he
    subst he
    simp [isMutationCall] at hm
  · rw [if_neg h1] at he
    by_cases h2 : (reduce_phase env (selected_files files m n)).plans.isEmpty
    · rw [if_pos h2] at he
      rw [reduce_phase_no_mutation env _ e he] at hm
      exact absurd hm (by simp)
    · rw [if_neg h2] at he
      rcases List.mem_append.mp he with h | h
      · rw [reduce_phase_no_mutation env _ e h] at hm
        exact absurd hm (by simp)
      · rcases List.mem_cons.mp h with rfl | h
        · simp [isMutationCall] at hm
        · rcases List.mem_append.mp h with h | h
          · by_cases haff : pyAffirm env.answer = true
            · exact haff
            · rw [if_neg haff] at h
              exact absurd h (List.not_mem_nil e)
          · simp only [List.mem_singleton] at h
            subst h
            simp [isMutationCall] at hm

theorem dup_mutation_only_if (env : DupEnv) (files : List MediaRecord)
    (e : Event) (he : e ∈ find_duplicates env files)
    (hm : isMutationCall e = true) : pyAffirm env.confirm = true := by
  unfold find_duplicates at he
  by_cases h1 : (duplicates_to_delete files).isEmpty
  · rw [if_pos h1] at he
    simp only [List.mem_singleton] at he
    subst he
    simp [isMutationCall] at hm
  · rw [if_neg h1] at he
    rcases List.mem_cons.mp he with rfl | h
    · simp [isMutationCall] at hm
    · rcases List.mem_cons.mp h with rfl | h
      · simp [isMutationCall] at hm
      · by_cases hc : pyAffirm env.confirm = true
        · exact hc
        · rw [if_neg hc] at h
          simp only [List.mem_singleton] at h
          subst h
          simp [isMutationCall] at hm

theorem diskStep_mono (d : List String) (e : Event) (s : String)
    (h : s ∈ d) : s ∈ diskStep d e := by
  cases e <;> simp [diskStep, h]

theorem foldl_diskStep_mono :
    ∀ (tr : List Event) (d : List String) (s : String), s ∈ d →
      s ∈ tr.foldl diskStep d
  | [], _, _, h => h
  | e :: tr, d, s, h =>
    foldl_diskStep_mono tr (diskStep d e) s (diskStep_mono d e s h)

theorem mem_foldl_diskStep_of_reduced :
    ∀ (tr : List Event) (d : List String) (nm : String) (b a : Int),
      Event.msgReduced nm b a ∈ tr →
      ("output/reduced/" ++ nm) ∈ tr.foldl diskStep d
  | [], _, _, _, _, h => absurd h (List.not_mem_nil _)
  | e :: tr, d, nm, b, a, h => by
    rcases List.mem_cons.mp h with rfl | hm
    · exact foldl_diskStep_mono tr _ _ (by simp [diskStep])
    · exact mem_foldl_diskStep_of_reduced tr (diskStep d e) nm b a hm

/-- C4: with a non-affirmative confirmation (anything whose
stripped-lowercased form is not `"y"`), neither workflow issues a trash
or upload call; conversely a mutation call in either trace implies the
confirmation was affirmative; and every reduced file written during the
run is still on the local disk at the end of the run. -/
theorem confirmation_gate (envR : ReduceEnv) (envD : DupEnv)
    (files : List FileRec) (dfiles : List MediaRecord) (m : ℚ) (n : Int) :
    (pyAffirm envR.answer = false →
      ∀ e ∈ download_and_reduce_images envR files m n,
        isMutationCall e = false) ∧
    (∀ e ∈ download_and_reduce_images envR files m n,
      isMutationCall e = true → pyAffirm envR.answer = true) ∧
    (∀ nm b a,
      Event.msgReduced nm b a ∈ download_and_reduce_images envR files m n →
      ("output/reduced/" ++ nm)
        ∈ finalDisk (download_and_reduce_images envR files m n)) ∧
    (pyAffirm envD.confirm = false →
      ∀ e ∈ find_duplicates envD dfiles, isMutationCall e = false) ∧
    (∀ e ∈ find_duplicates envD dfiles,
      isMutationCall e = true → pyAffirm envD.confirm = true) := by
  refine ⟨?_, ?_, ?_, ?_, ?_⟩
  · intro hdecl e he
    cases hmc : isMutationCall e with
    | false => rfl
    | true =>
      rw [run_mutation_only_if envR files m n e he hmc] at hdecl
      exact absurd hdecl (by simp)
  · exact fun e he hm => run_mutation_only_if envR files m n e he hm
  · intro nm b a h
    exact mem_foldl_diskStep_of_reduced _ [] nm b a h
  · intro hdecl e he
    cases hmc : isMutationCall e with
    | false => rfl
    | true =>
      rw [dup_mutation_only_if envD dfiles e he hmc] at hdecl
      exact absurd hdecl (by simp)
  · exact fun e he hm => dup_mutation_only_if envD dfiles e he hm

theorem run_filter_downloading (env : ReduceEnv) (files : List FileRec)
    (m : ℚ) (n : Int) :
    (download_and_reduce_images env files m n).filter isMsgDownloading
      = (selected_files files m n).map fun f =>
          Event.msgDownloading f.name := by
  unfold download_and_reduce_images
  by_cases h1 : (image_files files m).isEmpty
  · rw [if_pos h1]
    have : image_files files m = [] := List.isEmpty_iff.mp h1
    simp [selected_files, this, pyTake, isMsgDownloading]
  · rw [if_neg h1]
    by_cases h2 : (reduce_phase env (selected_files files m n)).plans.isEmpty
    · rw [if_pos h2]
      exact reduce_phase_downloading env _
    · rw [if_neg h2]
      rw [List.filter_append, reduce_phase_downloading env _]
      have htail : (Event.msgProjected (reduce_phase env
          (selected_files files m n)).total ::
            ((if pyAffirm env.answer then
                (reduce_phase env (selected_files files m n)).plans.flatMap
                  (replace_file env)
              else []) ++
              [Event.msgFinalTotal (reduce_phase env
                (selected_files files m n)).total])).filter isMsgDownloading
          = [] := by
        rw [List.filter_eq_nil_iff]
        intro e he
        rcases List.mem_cons.mp he with rfl | he
        · simp [isMsgDownloading]
        · rcases List.mem_append.mp he with he | he
          · by_cases haff : pyAffirm env.answer = true
            · rw [if_pos haff] at he
              obtain ⟨g, _, heg⟩ := List.mem_flatMap.mp he
              rw [(replace_file_kinds env g e heg).1]
              simp
            · rw [if_neg haff] at he
              exact absurd he (List.not_mem_nil e)
          · simp only [List.mem_singleton] at he
            subst he
            simp [isMsgDownloading]
      rw [htail, List.append_nil]

theorem run_eq_confirmed (env : ReduceEnv) (files : List FileRec) (m : ℚ)
    (n : Int) (h1 : (image_files files m).isEmpty = false)
    (h2 : (reduce_phase env
      (selected_files files m n)).plans.isEmpty = false)
    (h3 : pyAffirm env.answer = true) :
    download_and_reduce_images env files m n
      = (reduce_phase env (selected_files files m n)).events ++
          Event.msgProjected (reduce_phase env
              (selected_files files m n)).total ::
            ((reduce_phase env (selected_files files m n)).plans.flatMap
                (replace_file env) ++
              [Event.msgFinalTotal (reduce_phase env
                (selected_files files m n)).total]) := by
  unfold download_and_reduce_images
  rw [if_neg (by simp [h1]), if_neg (by simp [h2]), if_pos h3]

theorem dup_run_confirmed (env : DupEnv) (files : List MediaRecord)
    (h1 : (duplicates_to_delete files).isEmpty = false)
    (h2 : pyAffirm env.confirm = true) :
    find_duplicates env files
      = Event.msgFoundDuplicates (duplicates_to_delete files).length ::
          Event.msgEstimate (total_bytes_savable files) ::
            ((duplicates_to_delete files).flatMap fun f =>
              Event.callTrash (extract_file_id f.path) (env.trashOk f) ::
                (if env.trashOk f then [Event.msgDupTrashed f.name f.path]
                  else [Event.msgDupTrashFailed f.name])) := by
  unfold find_duplicates
  rw [if_neg (by simp [h1]), if_pos h2]

theorem dup_loop_calls (env : DupEnv) :
    ∀ (dups : List MediaRecord),
      ((dups.flatMap fun f =>
          Event.callTrash (extract_file_id f.path) (env.trashOk f) ::
            (if env.trashOk f then [Event.msgDupTrashed f.name f.path]
              else [Event.msgDupTrashFailed f.name])).filter isCallTrash)
        = dups.map fun f =>
            Event.callTrash (extract_file_id f.path) (env.trashOk f)
  | [] => rfl
  | f :: dups => by
    rw [List.flatMap_cons, List.filter_append, dup_loop_calls env dups]
    by_cases ht : env.trashOk f <;>
      simp [ht, List.filter_cons, isCallTrash]

/-- C6: every selected record is attempted in order — one "Downloading"
line per selection regardless of per-file outcomes — a failed download
logs a failure for that file, an undecodable image logs a skip for that
file, and in the duplicate workflow every candidate gets its trash call
(in order) with a logged failure when that call fails: a per-file error
never aborts the rest of the batch. -/
theorem per_file_isolation (envR : ReduceEnv) (envD : DupEnv)
    (files : List FileRec) (dfiles : List MediaRecord) (m : ℚ) (n : Int) :
    ((download_and_reduce_images envR files m n).filter isMsgDownloading
      = (selected_files files m n).map fun f =>
          Event.msgDownloading f.name) ∧
    (∀ f ∈ selected_files files m n, envR.downloadOk f = false →
      Event.msgDownloadFailed f.name
        ∈ download_and_reduce_images envR files m n) ∧
    (∀ f ∈ selected_files files m n, envR.downloadOk f = true →
      envR.reduceResult f = none →
      Event.msgSkippedCorrupted f.name
        ∈ download_and_reduce_images envR files m n) ∧
    ((duplicates_to_delete dfiles).isEmpty = false →
      pyAffirm envD.confirm = true →
      (find_duplicates envD dfiles).filter isCallTrash
        = (duplicates_to_delete dfiles).map fun f =>
            Event.callTrash (extract_file_id f.path) (envD.trashOk f)) ∧
    (∀ f ∈ duplicates_to_delete dfiles, pyAffirm envD.confirm = true →
      envD.trashOk f = false →
      Event.msgDupTrashFailed f.name ∈ find_duplicates envD dfiles) := by
  have hsel : ∀ f ∈ selected_files files m n,
      (image_files files m).isEmpty = false := by
    intro f hf
    rw [List.isEmpty_eq_false]
    intro h0
    rw [selected_files, h0] at hf
    simp [pyTake] at hf
  have hmem : ∀ f ∈ selected_files files m n, ∀ e,
      e ∈ (process_file envR f).events →
      e ∈ download_and_reduce_images envR files m n := by
    intro f hf e he
    have hev : e ∈ (reduce_phase envR (selected_files files m n)).events :=
      mem_reduce_phase_of_mem envR _ f hf e he
    unfold download_and_reduce_images
    rw [if_neg (by simp [hsel f hf])]
    by_cases h2 : (reduce_phase envR
        (selected_files files m n)).plans.isEmpty
    · rw [if_pos h2]
      exact hev
    · rw [if_neg h2]
      exact List.mem_append_left _ hev
  refine ⟨run_filter_downloading envR files m n, ?_, ?_, ?_, ?_⟩
  · intro f hf hd
    refine hmem f hf _ ?_
    simp [process_file, hd]
  · intro f hf hd hr
    refine hmem f hf _ ?_
    simp [process_file, hd, hr]
  · intro h1 h2
    rw [dup_run_confirmed envD dfiles h1 h2]
    rw [List.filter_cons, List.filter_cons]
    simp only [isCallTrash, if_false, Bool.false_eq_true]
    exact dup_loop_calls envD _
  · intro f hf hc ht
    have h1 : (duplicates_to_delete dfiles).isEmpty = false := by
      rw [List.isEmpty_eq_false]
      exact List.ne_nil_of_mem hf
    rw [dup_run_confirmed envD dfiles h1 hc]
    refine List.mem_cons_of_mem _ (List.mem_cons_of_mem _ ?_)
    exact List.mem_flatMap.mpr ⟨f, hf, by simp [ht]⟩

theorem sumReducedDeltas_eq_zero (tr : List Event)
    (h : ∀ e ∈ tr, ∀ nm b a, e ≠ Event.msgReduced nm b a) :
    sumReducedDeltas tr = 0 := by
  unfold sumReducedDeltas
  have hnil : (tr.filterMap fun e =>
      match e with
      | Event.msgReduced _ b a => some (b - a)
      | _ => none) = [] := by
    rw [List.filterMap_eq_nil_iff]
    intro e he
    cases e <;> first
      | rfl
      | exact absurd rfl (h _ he _ _ _)
  rw [hnil]
  rfl

/-- C2 amended: the final "Total space saved" figure reported after the
replacement loop is always the projected total — the sum of
`before - after` over every successfully reduced file — regardless of
whether any trash or upload call later succeeded or failed.  The source
keeps no per-file realized accounting. -/
theorem final_total_is_projected (env : ReduceEnv) (files : List FileRec)
    (m : ℚ) (n : Int) (t : Int)
    (h : Event.msgFinalTotal t ∈ download_and_reduce_images env files m n) :
    t = sumReducedDeltas (download_and_reduce_images env files m n) := by
  unfold download_and_reduce_images at h ⊢
  by_cases h1 : (image_files files m).isEmpty
  · rw [if_pos h1] at h
    simp at h
  · rw [if_neg h1] at h ⊢
    by_cases h2 : (reduce_phase env (selected_files files m n)).plans.isEmpty
    · rw [if_pos h2] at h
      exact absurd h fun hh => reduce_phase_no_final env _ t hh
    · rw [if_neg h2] at h ⊢
      have htot : t = (reduce_phase env (selected_files files m n)).total := by
        rcases List.mem_append.mp h with hh | hh
        · exact absurd hh fun hh => reduce_phase_no_final env _ t hh
        · rcases List.mem_cons.mp hh with heq | hh
          · exact absurd heq (by simp)
          · rcases List.mem_append.mp hh with hh | hh
            · by_cases haff : pyAffirm env.answer = true
              · rw [if_pos haff] at hh
                obtain ⟨g, _, heg⟩ := List.mem_flatMap.mp hh
                exact absurd rfl ((replace_file_kinds env g _ heg).2.2.1 t)
              · rw [if_neg haff] at hh
                exact absurd hh (List.not_mem_nil _)
            · simp only [List.mem_singleton] at hh
              simpa using hh
      have htail : sumReducedDeltas
          (Event.msgProjected (reduce_phase env
              (selected_files files m n)).total ::
            ((if pyAffirm env.answer then
                (reduce_phase env (selected_files files m n)).plans.flatMap
                  (replace_file env)
              else []) ++
              [Event.msgFinalTotal (reduce_phase env
                (selected_files files m n)).total])) = 0 := by
        apply sumReducedDeltas_eq_zero
        intro e he nm b a
        rcases List.mem_cons.mp he with rfl | he
        · simp
        · rcases List.mem_append.mp he with he | he
          · by_cases haff : pyAffirm env.answer = true
            · rw [if_pos haff] at he
              obtain ⟨g, _, heg⟩ := List.mem_flatMap.mp he
              exact (replace_file_kinds env g _ heg).2.1 nm b a
            · rw [if_neg haff] at he
              exact absurd he (List.not_mem_nil _)
          · simp only [List.mem_singleton] at he
            subst he
            simp
      rw [htot, sumReducedDeltas_append, htail, add_zero,
        ← reduce_phase_total_eq]

/-- C5 amended: when trash succeeds and upload fails for a file, the run
emits the successful trash call and its log line, the failed upload
call, and then the ordinary generic "Failed to replace" entry — the
same failure entry an ordinary trash failure produces, with no dedicated
`InconsistentRemoteStateWarning` entry; no upload-success line is
emitted for that file (original trashed, no replacement), and the
confirmed loop still issues the trash call for every plan, so processing
proceeds to the next plan. -/
theorem inconsistent_state_handling (env : ReduceEnv)
    (files : List FileRec) (m : ℚ) (n : Int) (f : FileRec)
    (ht : env.trashOk f = true) (hu : env.uploadOk f = false) :
    replace_file env f
      = [Event.callTrash (extract_file_id f.path) true,
          Event.msgTrashedOriginal f.name,
          Event.callUpload f.name false,
          Event.msgReplaceFailed f.name] ∧
    Event.msgUploaded f.name ∉ replace_file env f ∧
    (pyAffirm env.answer = true →
      (image_files files m).isEmpty = false →
      (reduce_phase env (selected_files files m n)).plans.isEmpty = false →
      ∀ g ∈ (reduce_phase env (selected_files files m n)).plans,
        Event.callTrash (extract_file_id g.path) (env.trashOk g)
          ∈ download_and_reduce_images env files m n) := by
  refine ⟨by simp [replace_file, ht, hu], by simp [replace_file, ht, hu], ?_⟩
  intro haff h1 h2 g hg
  rw [run_eq_confirmed env files m n h1 h2 haff]
  refine List.mem_append_right _
    (List.mem_cons_of_mem _ (List.mem_append_left _ ?_))
  exact List.mem_flatMap.mpr ⟨g, hg, by simp [replace_file]⟩

/-- C3: reduction-eligible selection is the listing-ordered filter by
image mime type, strict size threshold and ownership, truncated to its
first `max_count` entries; the result is a sublist of the input (no
re-sorting), and membership in the filtered list is exactly the
conjunction of the three conditions. -/
theorem selection_policy (files : List FileRec) (m : ℚ) (k : Nat) :
    selected_files files m (k : Int) = (image_files files m).take k ∧
    (selected_files files m (k : Int)).Sublist files ∧
    ∀ f ∈ files, (f ∈ image_files files m ↔
      ((∃ s, f.mimeType = some s ∧ pyStartsWith s.data "image/".data = true) ∧
        ((f.size_bytes.getD 0 : Int) : ℚ) > m * 1024 * 1024 ∧
        f.ownedByMe = PyVal.vBool true)) := by
  refine ⟨pyTake_ofNat k _, selected_files_sublist files m _, ?_⟩
  intro f hf
  rw [image_files, List.mem_filter]
  constructor
  · rintro ⟨-, hcond⟩
    simp only [Bool.and_eq_true, decide_eq_true_eq] at hcond
    obtain ⟨⟨hmime, hsize⟩, hown⟩ := hcond
    refine ⟨?_, hsize, hown⟩
    cases hmt : f.mimeType with
    | none =>
      rw [hmt] at hmime
      exact absurd hmime (by decide)
    | some s => exact ⟨s, rfl, by rw [hmt] at hmime; exact hmime⟩
  · rintro ⟨⟨s, hs, hstart⟩, hsize, hown⟩
    refine ⟨hf, ?_⟩
    simp only [Bool.and_eq_true, decide_eq_true_eq]
    exact ⟨⟨by rw [hs]; exact hstart, hsize⟩, hown⟩

/-- C10 amended: a record missing `mimeType`, or whose `ownedByMe` value
is anything but the boolean `True`, is always excluded from the
selection; a record missing `size_bytes` is excluded whenever the
operator-supplied threshold is non-negative (its default 0 then fails
the strict comparison, but a negative `min_size_mb` lets it through);
and the filter is exactly the `.get`-with-default reading of the three
conditions with ownership tested by identity with `True`. -/
theorem boundary_defaults (files : List FileRec) (m : ℚ) (n : Int)
    (f : FileRec) (hf : f ∈ files) :
    (f.mimeType = none →
      f ∉ image_files files m ∧ f ∉ selected_files files m n) ∧
    (0 ≤ m → f.size_bytes = none →
      f ∉ image_files files m ∧ f ∉ selected_files files m n) ∧
    (f.ownedByMe ≠ PyVal.vBool true →
      f ∉ image_files files m ∧ f ∉ selected_files files m n) ∧
    (f ∈ image_files files m ↔
      (pyStartsWith (f.mimeType.getD "").data "image/".data = true ∧
        ((f.size_bytes.getD 0 : Int) : ℚ) > m * 1024 * 1024 ∧
        f.ownedByMe = PyVal.vBool true)) := by
  have hnotsel : f ∉ image_files files m → f ∉ selected_files files m n :=
    fun him hsel =>
      him ((pyTake_sublist n (image_files files m)).subset hsel)
  refine ⟨?_, ?_, ?_, ?_⟩
  · intro hmt
    have him : f ∉ image_files files m := by
      intro hin
      have hc := (List.mem_filter.mp hin).2
      simp only [Bool.and_eq_true, decide_eq_true_eq] at hc
      rw [hmt] at hc
      exact absurd hc.1.1 (by decide)
    exact ⟨him, hnotsel him⟩
  · intro hm hsz
    have him : f ∉ image_files files m := by
      intro hin
      have hc := (List.mem_filter.mp hin).2
      simp only [Bool.and_eq_true, decide_eq_true_eq] at hc
      rw [hsz] at hc
      have h0 : ((Option.getD (none : Option Int) 0 : Int) : ℚ) = 0 := by
        norm_num [Option.getD]
      rw [h0] at hc
      have hge : (0 : ℚ) ≤ m * 1024 * 1024 :=
        mul_nonneg (mul_nonneg hm (by norm_num)) (by norm_num)
      exact absurd hc.1.2 (not_lt.mpr hge)
    exact ⟨him, hnotsel him⟩
  · intro hown
    have him : f ∉ image_files files m := by
      intro hin
      have hc := (List.mem_filter.mp hin).2
      simp only [Bool.and_eq_true, decide_eq_true_eq] at hc
      exact hown hc.2
    exact ⟨him, hnotsel him⟩
  · rw [image_files, List.mem_filter]
    simp only [Bool.and_eq_true, decide_eq_true_eq]
    constructor
    · rintro ⟨-, ⟨hc1, hc2⟩, hc3⟩
      exact ⟨hc1, hc2, hc3⟩
    · rintro ⟨hc1, hc2, hc3⟩
      exact ⟨hf, ⟨hc1, hc2⟩, hc3⟩

theorem image_files_intThreshold (files : List FileRec) (z : Int) :
    image_files files (z : ℚ)
      = files.filter fun f =>
          pyStartsWith (f.mimeType.getD "").data "image/".data
            && decide (z * 1024 * 1024 < f.size_bytes.getD 0)
            && decide (f.ownedByMe = PyVal.vBool true) := by
  unfold image_files
  apply List.filter_congr
  intro f _
  have hiff : (((f.size_bytes.getD 0 : Int) : ℚ) > (z : ℚ) * 1024 * 1024)
      ↔ (z * 1024 * 1024 < f.size_bytes.getD 0) := by
    rw [gt_iff_lt,
      show ((z : ℚ) * 1024 * 1024) = ((z * 1024 * 1024 : Int) : ℚ) by
        push_cast
        ring]
    exact Int.cast_lt
  rw [decide_eq_decide.mpr hiff]

/-- Listing-shaped records used as concrete inputs below. -/
def rA : MediaRecord :=
  ⟨"a.jpg", "https://drive.google.com/file/d/idA/view", 100⟩

def rB : MediaRecord :=
  ⟨"a.jpg", "https://drive.google.com/file/d/idB/view", 100⟩

def rC : MediaRecord :=
  ⟨"b.jpg", "https://drive.google.com/file/d/idC/view", 100⟩

def wf1 : FileRec :=
  ⟨"a.jpg", "https://drive.google.com/file/d/idA/view", some 3000000,
    some "image/jpeg", PyVal.vBool true⟩

def wf2 : FileRec :=
  ⟨"b.mp4", "https://drive.google.com/file/d/idB/view", some 9000000,
    some "video/mp4", PyVal.vBool true⟩

def fA : FileRec :=
  ⟨"a.jpg", "https://drive.google.com/file/d/idA/view", some 100,
    some "image/jpeg", PyVal.vBool true⟩

def fB : FileRec :=
  ⟨"b.jpg", "https://drive.google.com/file/d/idB/view", some 200,
    some "image/jpeg", PyVal.vBool true⟩

def fC : FileRec :=
  ⟨"c.jpg", "https://drive.google.com/file/d/idC/view", some 100,
    some "image/jpeg", PyVal.vBool true⟩

def fM : FileRec :=
  ⟨"m.jpg", "https://drive.google.com/file/d/idM/view", none,
    some "image/png", PyVal.vBool true⟩

def fT : FileRec :=
  ⟨"t.jpg", "https://drive.google.com/file/d/idT/view", some 5000000,
    some "image/png", PyVal.vInt 1⟩

/-- Declined-confirmation environment: everything succeeds but the
operator answers `"n"`. -/
def envDecl : ReduceEnv :=
  ⟨fun _ => true, fun _ => some (100, 40), "n", fun _ => true,
    fun _ => true⟩

def denvDecl : DupEnv := ⟨"n", fun _ => true⟩

/-- Two reductions succeed, both trashes succeed, only the first upload
succeeds. -/
def envC2 : ReduceEnv :=
  ⟨fun _ => true,
    fun f => if f.name == "a.jpg" then some (100, 40) else some (200, 80),
    "y", fun _ => true, fun f => f.name == "a.jpg"⟩

/-- Trash succeeds, upload fails. -/
def envA : ReduceEnv :=
  ⟨fun _ => true, fun _ => some (100, 40), "y", fun _ => true,
    fun _ => false⟩

/-- Trash itself fails. -/
def envB : ReduceEnv :=
  ⟨fun _ => true, fun _ => some (100, 40), "y", fun _ => false,
    fun _ => false⟩

/-- Every download fails. -/
def envFail : ReduceEnv :=
  ⟨fun _ => false, fun _ => none, "y", fun _ => true, fun _ => true⟩

theorem find_duplicates_buckets_witness :
    dupGroups [rA, rB, rC] = [[rA, rB]] ∧
    (∃ k, [rA, rB] = [rA, rB, rC].filter fun f => dupKey f = k) ∧
    duplicates_to_delete [rA, rB, rC] = [rB] ∧
    total_bytes_savable [rA, rB, rC] = 100 :=
  ⟨by decide,
    ((find_duplicates_buckets [rA, rB, rC]).1 [rA, rB] (by decide)).2,
    by decide, by decide⟩

theorem find_duplicates_partition_witness :
    2 ≤ ([rA, rB] : List MediaRecord).length ∧
    ((dupGroups [rA, rB, rC]).flatten ++ [rA, rB, rC].filter fun f =>
        ([rA, rB, rC].countP fun g => dupKey g = dupKey f) = 1).Perm
      [rA, rB, rC] :=
  ⟨(find_duplicates_partition [rA, rB, rC]).1 [rA, rB] (by decide),
    (find_duplicates_partition [rA, rB, rC]).2⟩

theorem selection_policy_witness :
    wf1 ∈ image_files [wf1, wf2] 2 ↔
      ((∃ s, wf1.mimeType = some s ∧ pyStartsWith s.data "image/".data = true) ∧
        ((wf1.size_bytes.getD 0 : Int) : ℚ) > 2 * 1024 * 1024 ∧
        wf1.ownedByMe = PyVal.vBool true) :=
  (selection_policy [wf1, wf2] 2 1).2.2 wf1 (by decide)

theorem confirmation_gate_witness :
    isMutationCall (Event.msgFinalTotal 60) = false := by
  have h2 : image_files [wf1, wf2] (2 : ℚ) = [wf1] := by
    rw [show (2 : ℚ) = ((2 : Int) : ℚ) by simp, image_files_intThreshold]
    decide
  apply (confirmation_gate envDecl denvDecl [wf1, wf2] [rA, rB, rC] 2
    1).1 (by decide)
  unfold download_and_reduce_images selected_files
  rw [h2]
  decide

theorem per_file_isolation_witness :
    Event.msgDownloadFailed "a.jpg"
      ∈ download_and_reduce_images envFail [wf1, wf2] 2 1 := by
  have h2 : image_files [wf1, wf2] (2 : ℚ) = [wf1] := by
    rw [show (2 : ℚ) = ((2 : Int) : ℚ) by simp, image_files_intThreshold]
    decide
  have hmem : wf1 ∈ selected_files [wf1, wf2] 2 1 := by
    unfold selected_files
    rw [h2]
    decide
  exact (per_file_isolation envFail denvDecl [wf1, wf2] [rA, rB, rC] 2
    1).2.1 wf1 hmem rfl

theorem final_total_is_projected_witness :
    (60 : Int) = sumReducedDeltas
      (download_and_reduce_images envDecl [wf1, wf2] 2 1) := by
  have h2 : image_files [wf1, wf2] (2 : ℚ) = [wf1] := by
    rw [show (2 : ℚ) = ((2 : Int) : ℚ) by simp, image_files_intThreshold]
    decide
  apply final_total_is_projected envDecl [wf1, wf2] 2 1 60
  unfold download_and_reduce_images selected_files
  rw [h2]
  decide

/-- C2 counterexample: both files reduce (deltas 60 and 120), the
confirmation is given, both trashes succeed, and the second upload
fails; the only final reported figure is 180, the full projected total,
while the realized saving per the spec's accounting is 60. -/
theorem final_total_cex :
    Event.msgFinalTotal 180
        ∈ download_and_reduce_images envC2 [fA, fB] 0 2 ∧
    Event.msgFinalTotal 60
        ∉ download_and_reduce_images envC2 [fA, fB] 0 2 ∧
    realized_savings (download_and_reduce_images envC2 [fA, fB] 0 2)
      = 60 := by
  have h0 : image_files [fA, fB] (0 : ℚ) = [fA, fB] := by
    rw [show (0 : ℚ) = ((0 : Int) : ℚ) by simp, image_files_intThreshold]
    decide
  unfold download_and_reduce_images selected_files
  rw [h0]
  decide

theorem inconsistent_state_handling_witness :
    Event.callTrash (extract_file_id fC.path) (envA.trashOk fC)
      ∈ download_and_reduce_images envA [fC] 0 1 := by
  have h0 : image_files [fC] (0 : ℚ) = [fC] := by
    rw [show (0 : ℚ) = ((0 : Int) : ℚ) by simp, image_files_intThreshold]
    decide
  refine (inconsistent_state_handling envA [fC] 0 1 fC rfl rfl).2.2
    (by decide) ?_ ?_ fC ?_
  · rw [h0]
    decide
  · unfold selected_files
    rw [h0]
    decide
  · unfold selected_files
    rw [h0]
    decide

/-- C5 counterexample: with one planned file, the run where trash
succeeds and upload fails logs exactly the same failure entry as the run
where trash itself fails — there is no dedicated, distinguishable
`InconsistentRemoteStateWarning` entry in the outcome log. -/
theorem inconsistent_state_cex :
    (download_and_reduce_images envA [fC] 0 1).filter isErrorMsg
        = [Event.msgReplaceFailed "c.jpg"] ∧
    (download_and_reduce_images envB [fC] 0 1).filter isErrorMsg
        = [Event.msgReplaceFailed "c.jpg"] := by
  have h0 : image_files [fC] (0 : ℚ) = [fC] := by
    rw [show (0 : ℚ) = ((0 : Int) : ℚ) by simp, image_files_intThreshold]
    decide
  unfold download_and_reduce_images selected_files
  rw [h0]
  decide

theorem reduce_dims_bounds_witness :
    (reduce_dims 1000 500).1 ≤ 1000 ∧ (reduce_dims 1000 500).2 ≤ 500 ∧
    reduce_dims 1000 500 = (1000, 500) ∧
    reduce_dims (reduce_dims 1000 500).1 (reduce_dims 1000 500).2
      = (1000, 500) :=
  ⟨(reduce_dims_bounds 1000 500 (by decide) (by decide)).1,
    (reduce_dims_bounds 1000 500 (by decide) (by decide)).2.1,
    ((reduce_dims_bounds 1000 500 (by decide) (by decide)).2.2
      (by decide) (by decide)).1,
    ((reduce_dims_bounds 1000 500 (by decide) (by decide)).2.2
      (by decide) (by decide)).2⟩

theorem drive_path_roundtrip_witness :
    extract_file_id (drive_path "abc123") = "abc123" :=
  drive_path_roundtrip "abc123" (by decide) (by decide)

theorem boundary_defaults_witness :
    fT ∉ image_files [fT] 2 :=
  (((boundary_defaults [fT] 2 1 fT (by decide)).2.2.1) (by decide)).1

/-- C10 counterexample: with a negative threshold (`min_size_mb = -1`,
accepted by `float(input(...))`), a record missing `size_bytes` defaults
to 0, and `0 > -1048576` holds, so the record is selected rather than
excluded. -/
theorem boundary_defaults_cex :
    fM ∈ image_files [fM] (-1) ∧ fM ∈ selected_files [fM] (-1) 1 := by
  have h0 : image_files [fM] (-1 : ℚ) = [fM] := by
    rw [show (-1 : ℚ) = ((-1 : Int) : ℚ) by simp, image_files_intThreshold]
    decide
  constructor
  · rw [h0]
    decide
  · unfold selected_files
    rw [h0]
    decide

end CloudSaver
